import Mathlib

/-!
Verification of the hierarchical spillage-based orbital-generation core of
`SIAB/spillage/api.py` (abacus_orbital_generation).

The Python functions are shallowly embedded as executable Lean definitions:

* nested Python lists become Lean `List`s; the innermost radial row
  (the `[q]` axis of a coefficient tensor) is kept abstract as a type
  variable, since no claim inspects individual `q` coefficients;
* Python `assert` failures become explicit `Except.error` values;
* real-valued population data is modelled over `ℚ` (the claims under
  scrutiny concern the combination/rounding structure, not IEEE rounding);
* `listmanip.merge` (invoked with depth 2) and the spillage minimizer are
  not part of the provided sources; `merge` is modelled from the spec
  ("concatenates a frozen coefficient tensor with a newly optimized tensor
  along the zeta axis, per channel, preserving channel order") and the
  minimizer is abstracted as an arbitrary function parameter.

Python list indexing `xs[i]` is rendered as `List.getD`; theorems carry
hypotheses confining them to inputs on which the Python code does not
raise `IndexError`, so that the total Lean model agrees with the code.
-/

/-- `List.getD` of a `replicate` is the default/element (they coincide). -/
theorem getD_replicate {α : Type} (a : α) : ∀ (n j : Nat), (List.replicate n a).getD j a = a := by
  intro n
  induction n with
  | zero => intro j; simp [List.getD]
  | succ n ih =>
    intro j
    cases j with
    | zero => simp [List.replicate]
    | succ j => simp only [List.replicate, List.getD_cons_succ]; exact ih j

/-- `getD` after `set` at a different index is unchanged. -/
theorem getD_set_ne {α : Type} (a d : α) :
    ∀ (l : List α) (i j : Nat), i ≠ j → (l.set i a).getD j d = l.getD j d := by
  intro l
  induction l with
  | nil => intro i j _; simp [List.set]
  | cons x xs ih =>
    intro i j hij
    cases i with
    | zero =>
      cases j with
      | zero => exact absurd rfl hij
      | succ j => simp [List.set, List.getD]
    | succ i =>
      cases j with
      | zero => simp [List.set, List.getD]
      | succ j =>
        simp only [List.set, List.getD_cons_succ]
        exact ih i j (fun h => hij (by simpa using congrArg Nat.succ h))

/-- `getD` after `set` at the same (in-range) index gives the new value. -/
theorem getD_set_self {α : Type} (a d : α) :
    ∀ (l : List α) (i : Nat), i < l.length → (l.set i a).getD i d = a := by
  intro l
  induction l with
  | nil => intro i h; simp at h
  | cons x xs ih =>
    intro i h
    cases i with
    | zero => simp [List.set, List.getD]
    | succ i =>
      simp only [List.set, List.getD_cons_succ]
      exact ih i (by simpa using h)

/-- `getD` of a `map` over `range`. -/
theorem getD_range_map {α : Type} (f : Nat → α) (d : α) (n j : Nat) (hj : j < n) :
    (((List.range n).map f).getD j d) = f j := by
  have hlen : j < ((List.range n).map f).length := by simpa using hj
  rw [List.getD_eq_getElem _ _ hlen, List.getElem_map]
  simp

/-- Two lists of equal length whose `getD` values agree below that length are equal. -/
theorem list_ext_getD {α : Type} (d : α) (l₁ l₂ : List α)
    (hlen : l₁.length = l₂.length)
    (h : ∀ j, j < l₁.length → l₁.getD j d = l₂.getD j d) : l₁ = l₂ := by
  apply List.ext_getElem hlen
  intro j h₁ h₂
  have := h j h₁
  rwa [List.getD_eq_getElem _ _ h₁, List.getD_eq_getElem _ _ h₂] at this

/-- Zip of two lists with an extension behaviour: leftover entries of the longer
list are kept unchanged.  Used to model per-channel concatenation of coefficient
tensors (`listmanip.merge`). -/
def zipExt {α : Type} (f : α → α → α) : List α → List α → List α
  | [], bs => bs
  | a :: as, [] => a :: as
  | a :: as, b :: bs => f a b :: zipExt f as bs

theorem zipExt_nil_left {α : Type} (f : α → α → α) (bs : List α) : zipExt f [] bs = bs := by
  cases bs <;> rfl

theorem zipExt_nil_right {α : Type} (f : α → α → α) (as : List α) : zipExt f as [] = as := by
  cases as <;> rfl

theorem zipExt_length {α : Type} (f : α → α → α) :
    ∀ (as bs : List α), (zipExt f as bs).length = max as.length bs.length := by
  intro as
  induction as with
  | nil => intro bs; simp [zipExt_nil_left]
  | cons a as ih =>
    intro bs
    cases bs with
    | nil => simp [zipExt]
    | cons b bs => simp [zipExt, ih bs, Nat.succ_max_succ]

/-- `getD` distributes over `zipExt` when the default is a two-sided identity of `f`. -/
theorem getD_zipExt {α : Type} (f : α → α → α) (e : α)
    (h₁ : ∀ y, f e y = y) (h₂ : ∀ x, f x e = x) :
    ∀ (as bs : List α) (j : Nat), (zipExt f as bs).getD j e = f (as.getD j e) (bs.getD j e) := by
  intro as
  induction as with
  | nil =>
    intro bs j
    simp [zipExt_nil_left, List.getD, h₁]
  | cons a as ih =>
    intro bs j
    cases bs with
    | nil =>
      simp [zipExt_nil_right, List.getD, h₂]
    | cons b bs =>
      cases j with
      | zero => simp [zipExt, List.getD]
      | succ j => simpa [zipExt, List.getD_cons_succ] using ih bs j

/-- Channel-level merge: concatenate the per-channel zeta rows of two tensors
indexed `[l][zeta]`.  Modelled from the spec: `listmanip.merge` at depth 1
"concatenates ... along the zeta axis, per channel, preserving channel order". -/
def mergeCh {α : Type} (a b : List (List α)) : List (List α) :=
  zipExt (fun x y => x ++ y) a b

/-- Tensor-level merge at depth 2, as used by `_do_onion_opt`
(`merge(coef_inner, coefs_shell, 2)`): tensors are indexed `[t][l][zeta]` and
the zeta-row lists are concatenated per atom type and channel.  Modelled from
the spec (see `mergeCh`). -/
def merge2 {α : Type} (a b : List (List (List α))) : List (List (List α)) :=
  zipExt mergeCh a b

theorem getD_mergeCh {α : Type} (a b : List (List α)) (j : Nat) :
    (mergeCh a b).getD j [] = a.getD j [] ++ b.getD j [] := by
  exact getD_zipExt _ [] (fun y => rfl) (fun x => List.append_nil x) a b j

theorem getD_merge2 {α : Type} (a b : List (List (List α))) (t : Nat) :
    (merge2 a b).getD t [] = mergeCh (a.getD t []) (b.getD t []) := by
  refine getD_zipExt mergeCh [] ?_ ?_ a b t
  · intro y; exact zipExt_nil_left _ y
  · intro x; exact zipExt_nil_right _ x

/-- Within `merge2 a b`, every channel of `a` survives unchanged as the initial
zeta rows of the corresponding channel of the result. -/
theorem merge2_take {α : Type} (a b : List (List (List α))) (t l : Nat) :
    (((merge2 a b).getD t []).getD l []).take (((a.getD t []).getD l []).length)
      = (a.getD t []).getD l [] := by
  rw [getD_merge2, getD_mergeCh]
  exact List.take_left _ _

/-- Error kinds raised by `_coef_subset` (both are Python `AssertionError`s;
`size` is the "(at least) size error of nzeta and nzeta0" length check at
api.py:437, `hierarchy` the "not hirarcal structure" componentwise check at
api.py:440). -/
inductive SubsetErr : Type
  | size : SubsetErr
  | hierarchy : SubsetErr
deriving DecidableEq

/-- Embedding of `_coef_subset(nzeta, nzeta0, data)` (api.py:412).
`data` is indexed `[l][zeta]` with the radial row abstract; result is wrapped
in a one-element atom-type list `[t][l][zeta]`.  Python's
`[data[l][j] for j in range(iz, jz)]` becomes `(drop iz).take (jz - iz)`;
`nzeta0` is padded with zeros up to `len(nzeta)`. -/
def coefSubset {α : Type} (nzeta : List Nat) (nzeta0 : Option (List Nat))
    (data : List (List α)) : Except SubsetErr (List (List (List α))) :=
  match nzeta0 with
  | none =>
      Except.ok [(List.range nzeta.length).map
        (fun l => (data.getD l []).take (nzeta.getD l 0))]
  | some nz0 =>
      if nzeta.length < nz0.length then Except.error SubsetErr.size
      else if (List.range nzeta.length).any
          (fun l => decide (nzeta.getD l 0
            < (nz0 ++ List.replicate (nzeta.length - nz0.length) 0).getD l 0)) then
        Except.error SubsetErr.hierarchy
      else
        Except.ok [(List.range nzeta.length).map
          (fun l => ((data.getD l []).drop
              ((nz0 ++ List.replicate (nzeta.length - nz0.length) 0).getD l 0)).take
            (nzeta.getD l 0
              - (nz0 ++ List.replicate (nzeta.length - nz0.length) 0).getD l 0))]

/-- Adjacent slices of the same channel concatenate: the `[a,b)` rows followed
by the `[b,c)` rows are the `[a,c)` rows, for `a ≤ b ≤ c`. -/
theorem slice_append {α : Type} (L : List α) (a b c : Nat) (hab : a ≤ b) (hbc : b ≤ c) :
    ((L.drop a).take (b - a)) ++ ((L.drop b).take (c - b)) = (L.drop a).take (c - a) := by
  have hsum : c - a = (b - a) + (c - b) := by omega
  rw [hsum, List.take_add]
  congr 1
  rw [List.drop_drop]
  congr 2
  omega

/-- Zero-padding a baseline `nzeta0` on the right does not change its
`getD`-with-default-0 reading at any index. -/
theorem getD_pad0 (nz0 : List Nat) (k l : Nat) :
    (nz0 ++ List.replicate k 0).getD l 0 = nz0.getD l 0 := by
  by_cases h : l < nz0.length
  · exact List.getD_append _ _ _ _ h
  · rw [List.getD_append_right _ _ _ _ (Nat.le_of_not_lt h),
        List.getD_eq_default _ _ (Nat.le_of_not_lt h)]
    exact getD_replicate 0 k (l - nz0.length)

/-- When the baseline is componentwise admissible, `_coef_subset` succeeds and
returns, per channel `l`, exactly the rows with zeta index in
`[nzeta0[l], nzeta[l])`. -/
theorem coefSubset_ok {α : Type} (nzeta nz0 : List Nat) (data : List (List α))
    (hlen : nz0.length ≤ nzeta.length)
    (hmono : ∀ l, l < nzeta.length → nz0.getD l 0 ≤ nzeta.getD l 0) :
    coefSubset nzeta (some nz0) data
      = Except.ok [(List.range nzeta.length).map
          (fun l => ((data.getD l []).drop (nz0.getD l 0)).take
            (nzeta.getD l 0 - nz0.getD l 0))] := by
  have hguard : (List.range nzeta.length).any
      (fun l => decide (nzeta.getD l 0
        < (nz0 ++ List.replicate (nzeta.length - nz0.length) 0).getD l 0)) = false := by
    rw [List.any_eq_false]
    intro l hl
    rw [List.mem_range] at hl
    simp only [getD_pad0, decide_eq_true_eq]
    exact fun hlt => absurd (hmono l hl) (Nat.not_le_of_lt hlt)
  unfold coefSubset
  dsimp only
  rw [if_neg (Nat.not_lt.mpr hlen)]
  simp only [hguard, Bool.false_eq_true, if_false]
  simp only [getD_pad0]

/-- C5: `_coef_subset(nzeta, nzeta0, data)` fails whenever `nzeta0[l] > nzeta[l]`
for some channel `l` present in both vectors: no subset value is ever returned,
and when the length guard passes the failure is precisely the
hierarchy-violation assertion (api.py:440). -/
theorem coef_subset_hierarchy_fail {α : Type} (nzeta nz0 : List Nat)
    (data : List (List α)) (l : Nat)
    (hl1 : l < nzeta.length) (_hl2 : l < nz0.length)
    (hviol : nzeta.getD l 0 < nz0.getD l 0) :
    (∀ S, coefSubset nzeta (some nz0) data ≠ Except.ok S) ∧
    (nz0.length ≤ nzeta.length →
      coefSubset nzeta (some nz0) data = Except.error SubsetErr.hierarchy) := by
  by_cases hlen : nzeta.length < nz0.length
  · constructor
    · intro S h
      unfold coefSubset at h
      dsimp only at h
      rw [if_pos hlen] at h
      exact Except.noConfusion h
    · intro h
      exact absurd h (Nat.not_le_of_lt hlen)
  · have hguard : (List.range nzeta.length).any
        (fun j => decide (nzeta.getD j 0
          < (nz0 ++ List.replicate (nzeta.length - nz0.length) 0).getD j 0)) = true := by
      rw [List.any_eq_true]
      refine ⟨l, List.mem_range.mpr hl1, ?_⟩
      simp only [getD_pad0, decide_eq_true_eq]
      exact hviol
    have hres : coefSubset nzeta (some nz0) data = Except.error SubsetErr.hierarchy := by
      unfold coefSubset
      dsimp only
      rw [if_neg hlen]
      simp only [hguard, if_true]
    constructor
    · intro S h
      rw [hres] at h
      exact Except.noConfusion h
    · intro _
      exact hres

/-- Witness for `coef_subset_hierarchy_fail` at `nzeta = [1,1]`,
`nzeta0 = [1,3]`, one-channel data. -/
theorem coef_subset_hierarchy_fail_witness :
    (∀ S, coefSubset [1, 1] (some [1, 3]) ([[0], [0]] : List (List Nat))
        ≠ Except.ok S) ∧
    ((1 :: [3]).length ≤ (1 :: [1]).length →
      coefSubset [1, 1] (some [1, 3]) ([[0], [0]] : List (List Nat))
        = Except.error SubsetErr.hierarchy) :=
  coef_subset_hierarchy_fail [1, 1] [1, 3] [[0], [0]] 1
    (by decide) (by decide) (by decide)

/-- C4: taking the subset between `nzeta0` and `nzeta1`, then the subset
between `nzeta1` and `nzeta2`, and merging the two along the zeta axis is the
same as taking the subset between `nzeta0` and `nzeta2` directly:
`merge(_coef_subset(nzeta1, nzeta0, A), _coef_subset(nzeta2, nzeta1, A))
  == _coef_subset(nzeta2, nzeta0, A)` for componentwise
`nzeta0 ≤ nzeta1 ≤ nzeta2` (rows long enough for the Python indexing). -/
theorem coef_subset_merge_compose {α : Type} (data : List (List α))
    (nz0 nz1 nz2 : List Nat)
    (h01 : nz0.length = nz1.length) (h12 : nz1.length = nz2.length)
    (m01 : ∀ l, l < nz1.length → nz0.getD l 0 ≤ nz1.getD l 0)
    (m12 : ∀ l, l < nz2.length → nz1.getD l 0 ≤ nz2.getD l 0)
    (_hdat : nz2.length ≤ data.length)
    (_hrows : ∀ l, l < nz2.length → nz2.getD l 0 ≤ (data.getD l []).length) :
    ∃ S1 S2 S0, coefSubset nz1 (some nz0) data = Except.ok S1 ∧
      coefSubset nz2 (some nz1) data = Except.ok S2 ∧
      coefSubset nz2 (some nz0) data = Except.ok S0 ∧
      merge2 S1 S2 = S0 := by
  have m02 : ∀ l, l < nz2.length → nz0.getD l 0 ≤ nz2.getD l 0 := by
    intro l hl
    exact le_trans (m01 l (h12 ▸ hl)) (m12 l hl)
  refine ⟨_, _, _, coefSubset_ok nz1 nz0 data (le_of_eq h01) (fun l hl => m01 l hl),
    coefSubset_ok nz2 nz1 data (le_of_eq h12) (fun l hl => m12 l hl),
    coefSubset_ok nz2 nz0 data (le_of_eq (h01.trans h12)) (fun l hl => m02 l hl), ?_⟩
  show merge2 [_] [_] = [_]
  have hone : ∀ (x y : List (List α)), merge2 [x] [y] = [mergeCh x y] := by
    intro x y
    show mergeCh x y :: zipExt mergeCh [] [] = [mergeCh x y]
    rfl
  rw [hone]
  congr 1
  apply list_ext_getD ([] : List α)
  · rw [mergeCh, zipExt_length]
    simp [h12]
  · intro j hj
    have hj2 : j < nz2.length := by
      rw [mergeCh, zipExt_length] at hj
      simp [h12] at hj
      simpa using hj
    have hj1 : j < nz1.length := h12 ▸ hj2
    rw [getD_mergeCh, getD_range_map _ _ _ _ hj1, getD_range_map _ _ _ _ hj2,
        getD_range_map _ _ _ _ hj2]
    exact slice_append _ _ _ _ (m01 j hj1) (m12 j hj2)

/-- Witness for `coef_subset_merge_compose` with
`nzeta0 = [0,1]`, `nzeta1 = [1,1]`, `nzeta2 = [3,2]` on a two-channel tensor. -/
theorem coef_subset_merge_compose_witness :
    ∃ S1 S2 S0,
      coefSubset [1, 1] (some [0, 1]) ([[10, 11, 12], [20, 21]] : List (List Nat))
        = Except.ok S1 ∧
      coefSubset [3, 2] (some [1, 1]) ([[10, 11, 12], [20, 21]] : List (List Nat))
        = Except.ok S2 ∧
      coefSubset [3, 2] (some [0, 1]) ([[10, 11, 12], [20, 21]] : List (List Nat))
        = Except.ok S0 ∧
      merge2 S1 S2 = S0 :=
  coef_subset_merge_compose [[10, 11, 12], [20, 21]] [0, 1] [1, 1] [3, 2]
    (by decide) (by decide) (by decide) (by decide) (by decide) (by decide)

/-- C10: behaviour of `_coef_subset` for absent / short / overlong baselines:
a `None` baseline is treated exactly like the all-zero baseline (so each
channel yields the first `nzeta[l]` rows, wrapped in a one-element atom-type
list); the missing trailing channels of a short baseline are treated as
baseline 0 (full `[0, nzeta[l])` range); a baseline strictly longer than
`nzeta` is rejected with the size assertion even when its extra components
are all zero. -/
theorem coef_subset_default_baseline {α : Type} (nzeta : List Nat)
    (data : List (List α)) :
    (coefSubset nzeta none data
        = coefSubset nzeta (some (List.replicate nzeta.length 0)) data) ∧
    (∃ L, coefSubset nzeta none data = Except.ok [L] ∧
        L.length = nzeta.length ∧
        ∀ l, l < nzeta.length →
          L.getD l [] = (data.getD l []).take (nzeta.getD l 0)) ∧
    (∀ nz0 : List Nat, nz0.length ≤ nzeta.length →
        (∀ l, l < nz0.length → nz0.getD l 0 ≤ nzeta.getD l 0) →
        ∃ L, coefSubset nzeta (some nz0) data = Except.ok [L] ∧
          ∀ l, nz0.length ≤ l → l < nzeta.length →
            L.getD l [] = (data.getD l []).take (nzeta.getD l 0)) ∧
    (∀ k, 0 < k →
        coefSubset nzeta (some (nzeta ++ List.replicate k 0)) data
          = Except.error SubsetErr.size) := by
  have hmono0 : ∀ l, l < nzeta.length →
      (List.replicate nzeta.length (0 : Nat)).getD l 0 ≤ nzeta.getD l 0 := by
    intro l _
    rw [getD_replicate]
    exact Nat.zero_le _
  refine ⟨?_, ?_, ?_, ?_⟩
  · rw [coefSubset_ok nzeta _ data (le_of_eq (List.length_replicate _ _)) hmono0]
    show Except.ok _ = Except.ok _
    congr 2
    apply List.map_congr_left
    intro l _
    rw [getD_replicate]
    simp
  · refine ⟨_, rfl, by simp, ?_⟩
    intro l hl
    exact getD_range_map _ _ _ _ hl
  · intro nz0 hlen hmono
    have hmono' : ∀ l, l < nzeta.length → nz0.getD l 0 ≤ nzeta.getD l 0 := by
      intro l hl
      by_cases h : l < nz0.length
      · exact hmono l h
      · rw [List.getD_eq_default _ _ (Nat.le_of_not_lt h)]
        exact Nat.zero_le _
    refine ⟨_, coefSubset_ok nzeta nz0 data hlen hmono', ?_⟩
    intro l hge hlt
    rw [getD_range_map _ _ _ _ hlt, List.getD_eq_default _ _ hge]
    simp
  · intro k hk
    unfold coefSubset
    dsimp only
    rw [if_pos (by simp; omega)]

/-- Witness for `coef_subset_default_baseline` at `nzeta = [2,1]` on a
two-channel tensor. -/
theorem coef_subset_default_baseline_witness :
    (coefSubset [2, 1] none ([[10, 11], [20]] : List (List Nat))
        = coefSubset [2, 1] (some (List.replicate ([2, 1] : List Nat).length 0))
            [[10, 11], [20]]) ∧
    (∃ L, coefSubset [2, 1] none ([[10, 11], [20]] : List (List Nat))
          = Except.ok [L] ∧
        L.length = ([2, 1] : List Nat).length ∧
        ∀ l, l < ([2, 1] : List Nat).length →
          L.getD l []
            = (([[10, 11], [20]] : List (List Nat)).getD l []).take
                (([2, 1] : List Nat).getD l 0)) ∧
    (∀ nz0 : List Nat, nz0.length ≤ ([2, 1] : List Nat).length →
        (∀ l, l < nz0.length → nz0.getD l 0 ≤ ([2, 1] : List Nat).getD l 0) →
        ∃ L, coefSubset [2, 1] (some nz0) ([[10, 11], [20]] : List (List Nat))
            = Except.ok [L] ∧
          ∀ l, nz0.length ≤ l → l < ([2, 1] : List Nat).length →
            L.getD l []
              = (([[10, 11], [20]] : List (List Nat)).getD l []).take
                  (([2, 1] : List Nat).getD l 0)) ∧
    (∀ k, 0 < k →
        coefSubset [2, 1] (some (([2, 1] : List Nat) ++ List.replicate k 0))
            ([[10, 11], [20]] : List (List Nat))
          = Except.error SubsetErr.size) :=
  coef_subset_default_baseline [2, 1] [[10, 11], [20]]

/-- Per-channel front slice used by one `_peel` iteration (api.py:365): for each
`l` enumerated by the level vector `z`, the first `z[l]` rows popped from
channel `l` of `t` (Python `[[t[l].pop(0) for _ in range(z[l])] ...]`,
collecting the popped values). -/
def enumTake {α : Type} (z : List Nat) (t : List (List α)) : List (List α) :=
  (List.range z.length).map (fun l => (t.getD l []).take (z.getD l 0))

/-- The residual effect of the same `_peel` iteration on the tensor being
popped from: channels enumerated by `z` lose their first `z[l]` rows, channels
beyond `len(z)` are untouched. -/
def enumDrop {α : Type} (z : List Nat) (t : List (List α)) : List (List α) :=
  (List.range t.length).map
    (fun l => if l < z.length then (t.getD l []).drop (z.getD l 0) else t.getD l [])

theorem enumTake_length {α : Type} (z : List Nat) (t : List (List α)) :
    (enumTake z t).length = z.length := by
  simp [enumTake]

theorem enumDrop_length {α : Type} (z : List Nat) (t : List (List α)) :
    (enumDrop z t).length = t.length := by
  simp [enumDrop]

theorem enumTake_getD {α : Type} (z : List Nat) (t : List (List α)) (j : Nat)
    (hj : j < z.length) :
    (enumTake z t).getD j [] = (t.getD j []).take (z.getD j 0) :=
  getD_range_map _ _ _ _ hj

theorem enumDrop_getD {α : Type} (z : List Nat) (t : List (List α)) (j : Nat)
    (hj : j < t.length) :
    (enumDrop z t).getD j []
      = if j < z.length then (t.getD j []).drop (z.getD j 0) else t.getD j [] :=
  getD_range_map _ _ _ _ hj

/-- Taking a full tensor (every channel shorter than its quota) is the
identity. -/
theorem enumTake_full {α : Type} (z : List Nat) (t : List (List α))
    (hlen : t.length = z.length)
    (hch : ∀ l, l < z.length → (t.getD l []).length ≤ z.getD l 0) :
    enumTake z t = t := by
  refine (list_ext_getD [] _ _ ?_ ?_).symm
  · rw [enumTake_length, hlen]
  · intro j hj
    rw [hlen] at hj
    rw [enumTake_getD _ _ _ hj, List.take_of_length_le (hch j hj)]

/-- The successive tensors held in `coef_lvl` during `_peel`'s loop
(api.py:363), in their final (post-mutation) values: the iteration for `z`
appends the popped front block and the *next* iteration for `z'` re-pops from
that block, leaving `enumDrop z'` of it behind.  First argument is the level
list already reversed, as iterated by the Python loop. -/
def peelChain {α : Type} : List (List Nat) → List (List α) → List (List (List α))
  | [], _ => []
  | [z], cur => [enumTake z cur]
  | z :: z' :: rest, cur =>
      enumDrop z' (enumTake z cur) :: peelChain (z' :: rest) (enumTake z cur)

/-- Embedding of `_peel(coef, nzeta_lvl_tot)` (api.py:348): the loop body
iterates over `reversed(nzeta_lvl_tot)` and the function returns
`coef_lvl[1:][::-1]`. -/
def peel {α : Type} (coef : List (List α)) (nzs : List (List Nat)) :
    List (List (List α)) :=
  (peelChain nzs.reverse coef).reverse

/-- Merge of a list of per-level channel tensors along the zeta axis, innermost
level first (the repeated `merge` of the onion optimizer, collapsed to one
flat tensor).  Modelled from the spec (see `mergeCh`). -/
def mergeAll {α : Type} (levels : List (List (List α))) : List (List α) :=
  levels.foldr mergeCh []

/-- `mergeAll` of a reversed (outermost-first) list of levels. -/
def mergeAllR {α : Type} (rls : List (List (List α))) : List (List α) :=
  mergeAll rls.reverse

theorem zipExt_assoc {α : Type} (f : α → α → α)
    (hf : ∀ a b c, f (f a b) c = f a (f b c)) :
    ∀ (as bs cs : List α), zipExt f (zipExt f as bs) cs = zipExt f as (zipExt f bs cs) := by
  intro as
  induction as with
  | nil => intro bs cs; rw [zipExt_nil_left, zipExt_nil_left]
  | cons a as ih =>
    intro bs cs
    cases bs with
    | nil => rw [zipExt_nil_right, zipExt_nil_left]
    | cons b bs =>
      cases cs with
      | nil => rw [zipExt_nil_right, zipExt_nil_right]
      | cons c cs => simp only [zipExt, hf, ih]

theorem mergeCh_assoc {α : Type} (a b c : List (List α)) :
    mergeCh (mergeCh a b) c = mergeCh a (mergeCh b c) :=
  zipExt_assoc _ (fun x y z => (List.append_assoc x y z)) a b c

theorem foldr_mergeCh_absorb {α : Type} :
    ∀ (xs : List (List (List α))) (B : List (List α)),
      xs.foldr mergeCh B = mergeCh (xs.foldr mergeCh []) B := by
  intro xs
  induction xs with
  | nil => intro B; rw [List.foldr_nil, List.foldr_nil, mergeCh, zipExt_nil_left]
  | cons x xs ih =>
    intro B
    rw [List.foldr_cons, List.foldr_cons, ih B, mergeCh_assoc]

theorem mergeAll_concat {α : Type} (xs : List (List (List α))) (B : List (List α)) :
    mergeAll (xs ++ [B]) = mergeCh (mergeAll xs) B := by
  unfold mergeAll
  rw [List.foldr_append, List.foldr_cons, List.foldr_nil]
  have : mergeCh B [] = B := zipExt_nil_right _ B
  rw [this, foldr_mergeCh_absorb]

theorem mergeAllR_cons {α : Type} (B : List (List α)) (rls : List (List (List α))) :
    mergeAllR (B :: rls) = mergeCh (mergeAllR rls) B := by
  unfold mergeAllR
  rw [List.reverse_cons, mergeAll_concat]

/-- Well-formedness of an outermost-first list of levels `rls` against the
outermost-first list of cumulative per-level `nzeta` vectors `rzs`: all
vectors have `m` channels, consecutive `nzeta` are componentwise
non-decreasing (inner ≤ outer), and level `i`'s channel `l` holds exactly the
increment `nzeta_i[l] - nzeta_(i-1)[l]` of rows. -/
def rcond {α : Type} (m : Nat) : List (List Nat) → List (List (List α)) → Bool
  | [], [] => true
  | [z], [B] =>
      z.length == m && B.length == m &&
      (List.range m).all (fun l => (B.getD l []).length == z.getD l 0)
  | z :: z' :: rzs, B :: rls =>
      z.length == m && B.length == m &&
      (List.range m).all (fun l =>
        decide (z'.getD l 0 ≤ z.getD l 0) &&
        ((B.getD l []).length == z.getD l 0 - z'.getD l 0)) &&
      rcond m (z' :: rzs) rls
  | _, _ => false

theorem rcond_head_len {α : Type} (m : Nat) (z : List Nat) (rzs : List (List Nat))
    (rls : List (List (List α))) (h : rcond m (z :: rzs) rls = true) :
    z.length = m := by
  cases rzs with
  | nil =>
    cases rls with
    | nil => simp [rcond] at h
    | cons B rls' =>
      cases rls' with
      | nil => simp [rcond] at h; exact h.1.1
      | cons B' rls'' => simp [rcond] at h
  | cons z' rzs' =>
    cases rls with
    | nil => simp [rcond] at h
    | cons B rls' => simp [rcond] at h; exact h.1.1.1

/-- The flat merge of a well-formed outermost-first level list has `m`
channels, channel `l` holding exactly `nzeta_outermost[l]` rows. -/
theorem rcond_flat {α : Type} (m : Nat) :
    ∀ (rzs : List (List Nat)) (rls : List (List (List α))),
      rcond m rzs rls = true → rzs ≠ [] →
      (mergeAllR rls).length = m ∧
      ∀ l, l < m → ((mergeAllR rls).getD l []).length = (rzs.headD []).getD l 0 := by
  intro rzs
  induction rzs with
  | nil => intro rls _ hne; exact absurd rfl hne
  | cons z rzs ih =>
    intro rls h _
    cases rzs with
    | nil =>
      cases rls with
      | nil => simp [rcond] at h
      | cons B rls' =>
        cases rls' with
        | nil =>
          simp only [rcond, Bool.and_eq_true, beq_iff_eq, List.all_eq_true] at h
          obtain ⟨⟨hz, hB⟩, hch⟩ := h
          have hflat : mergeAllR [B] = B := by
            rw [mergeAllR_cons]
            show mergeCh (mergeAll []) B = B
            rw [mergeAll, List.foldr_nil, mergeCh, zipExt_nil_left]
          rw [hflat]
          refine ⟨hB, ?_⟩
          intro l hl
          have := hch l (List.mem_range.mpr hl)
          simpa using this
        | cons B' rls'' => simp [rcond] at h
    | cons z' rest =>
      cases rls with
      | nil => simp [rcond] at h
      | cons B rls' =>
        simp only [rcond, Bool.and_eq_true, beq_iff_eq, List.all_eq_true] at h
        obtain ⟨⟨⟨hz, hB⟩, hch⟩, hrest⟩ := h
        have hrest' : rcond m (z' :: rest) rls' = true := hrest
        obtain ⟨hF0len, hF0ch⟩ := ih rls' hrest' (by simp)
        rw [mergeAllR_cons]
        constructor
        · rw [mergeCh, zipExt_length, hF0len, hB]
          exact Nat.max_self m
        · intro l hl
          have hcl := hch l (List.mem_range.mpr hl)
          simp only [Bool.and_eq_true, decide_eq_true_eq, beq_iff_eq] at hcl
          rw [getD_mergeCh, List.length_append, hF0ch l hl, hcl.2]
          simp only [List.headD_cons]
          exact Nat.add_sub_cancel' hcl.1

/-- `peelChain (z :: rest)` consults its tensor argument only through
`enumTake z`. -/
theorem peelChain_congr {α : Type} (z : List Nat) (rest : List (List Nat))
    (c₁ c₂ : List (List α)) (h : enumTake z c₁ = enumTake z c₂) :
    peelChain (z :: rest) c₁ = peelChain (z :: rest) c₂ := by
  cases rest with
  | nil => simp only [peelChain, h]
  | cons z' rest' => simp only [peelChain, h]

/-- Peeling the flat merge of a well-formed outermost-first level list with the
matching (outermost-first) cumulative `nzeta` list reproduces the levels. -/
theorem peel_aux {α : Type} (m : Nat) (rzs : List (List Nat)) :
    ∀ (rls : List (List (List α))), rcond m rzs rls = true →
      peelChain rzs (mergeAllR rls) = rls := by
  induction rzs with
  | nil =>
    intro rls h
    cases rls with
    | nil => rfl
    | cons B rls' => simp [rcond] at h
  | cons z rzs ih =>
    intro rls h
    have hzm : z.length = m := rcond_head_len m z rzs rls h
    obtain ⟨hFlen, hFch⟩ := rcond_flat m (z :: rzs) rls h (by simp)
    simp only [List.headD_cons] at hFch
    have htakeF : enumTake z (mergeAllR rls) = mergeAllR rls := by
      refine enumTake_full _ _ (by rw [hFlen, hzm]) ?_
      intro l hl
      rw [hzm] at hl
      exact le_of_eq (hFch l hl)
    cases rzs with
    | nil =>
      cases rls with
      | nil => simp [rcond] at h
      | cons B rls' =>
        cases rls' with
        | nil =>
          show [enumTake z (mergeAllR [B])] = [B]
          rw [htakeF]
          have : mergeAllR [B] = B := by
            rw [mergeAllR_cons]
            show mergeCh (mergeAll []) B = B
            rw [mergeAll, List.foldr_nil, mergeCh, zipExt_nil_left]
          rw [this]
        | cons B' rls'' => simp [rcond] at h
    | cons z' rest =>
      cases rls with
      | nil => simp [rcond] at h
      | cons B rls' =>
        have hparts := h
        simp only [rcond, Bool.and_eq_true, beq_iff_eq, List.all_eq_true] at hparts
        obtain ⟨⟨⟨hz, hB⟩, hch⟩, hrest⟩ := hparts
        have hrest' : rcond m (z' :: rest) rls' = true := hrest
        have hz'm : z'.length = m := rcond_head_len m z' rest rls' hrest'
        obtain ⟨hF0len, hF0ch⟩ := rcond_flat m (z' :: rest) rls' hrest' (by simp)
        simp only [List.headD_cons] at hF0ch
        have hflat : mergeAllR (B :: rls') = mergeCh (mergeAllR rls') B :=
          mergeAllR_cons B rls'
        have hdrop : enumDrop z' (mergeAllR (B :: rls')) = B := by
          refine list_ext_getD [] _ _ ?_ ?_
          · rw [enumDrop_length, hFlen, hB]
          · intro j hj
            rw [enumDrop_length, hFlen] at hj
            rw [enumDrop_getD _ _ _ (by rw [hFlen]; exact hj),
                if_pos (by rw [hz'm]; exact hj)]
            rw [hflat, getD_mergeCh, ← hF0ch j hj, List.drop_left]
        have htake' : enumTake z' (mergeAllR (B :: rls')) = mergeAllR rls' := by
          refine list_ext_getD [] _ _ ?_ ?_
          · rw [enumTake_length, hz'm, hF0len]
          · intro j hj
            rw [enumTake_length, hz'm] at hj
            rw [enumTake_getD _ _ _ (by rw [hz'm]; exact hj)]
            rw [hflat, getD_mergeCh, ← hF0ch j hj, List.take_left]
        have htake0 : enumTake z' (mergeAllR rls') = mergeAllR rls' := by
          refine enumTake_full _ _ (by rw [hF0len, hz'm]) ?_
          intro l hl
          rw [hz'm] at hl
          exact le_of_eq (hF0ch l hl)
        show enumDrop z' (enumTake z (mergeAllR (B :: rls')))
            :: peelChain (z' :: rest) (enumTake z (mergeAllR (B :: rls'))) = B :: rls'
        rw [htakeF, hdrop]
        have hcongr : peelChain (z' :: rest) (mergeAllR (B :: rls'))
            = peelChain (z' :: rest) (mergeAllR rls') :=
          peelChain_congr z' rest _ _ (by rw [htake', htake0])
        rw [hcongr, ih rls' hrest']

/-- C3 (amended): for per-level tensors holding exactly the `nzeta` increments
(level `i` has `nzeta_i[l] - nzeta_(i-1)[l]` rows in channel `l`, with the
cumulative `nzeta` componentwise non-decreasing from innermost to outermost),
merging the levels innermost-first along the zeta axis and then applying
`_peel` with the same innermost-to-outermost `nzeta` list reproduces exactly
the original per-level tensors, in the same innermost-first order. -/
theorem peel_merge_roundtrip {α : Type} (m : Nat) (levels : List (List (List α)))
    (nzs : List (List Nat))
    (h : rcond m nzs.reverse levels.reverse = true) :
    peel (mergeAll levels) nzs = levels := by
  have hM : mergeAll levels = mergeAllR levels.reverse := by
    unfold mergeAllR
    rw [List.reverse_reverse]
  rw [peel, hM, peel_aux m nzs.reverse levels.reverse h, List.reverse_reverse]

/-- Witness for `peel_merge_roundtrip`: two levels over one channel, `nzeta`
growing `[1]` then `[2]`, increments one row each. -/
theorem peel_merge_roundtrip_witness :
    rcond 1 ([[1], [2]] : List (List Nat)).reverse
        ([[[5]], [[6]]] : List (List (List Nat))).reverse = true ∧
    peel (mergeAll ([[[5]], [[6]]] : List (List (List Nat)))) [[1], [2]]
      = [[[5]], [[6]]] :=
  ⟨by decide, peel_merge_roundtrip 1 [[[5]], [[6]]] [[1], [2]] (by decide)⟩

/-- C3 counterexample: `_peel` pops from the *front* and returns the levels
innermost-first, not outermost-first.  Part one: for increment-sized levels
the round trip reproduces the levels in their original innermost-first order,
which differs from the claimed outermost-first order.  Part two: for levels
whose channel `l` holds `nzeta_i[l]` rows (full per-level tensors), the round
trip reproduces neither ordering of the originals. -/
theorem peel_merge_claim_counterexample :
    (peel (mergeAll ([[[10]], [[20]]] : List (List (List Nat)))) [[1], [2]]
        = [[[10]], [[20]]] ∧
      ([[[10]], [[20]]] : List (List (List Nat))) ≠ [[[20]], [[10]]]) ∧
    (peel (mergeAll ([[[10]], [[20, 30]]] : List (List (List Nat)))) [[1], [2]]
        ≠ [[[20, 30]], [[10]]] ∧
      peel (mergeAll ([[[10]], [[20, 30]]] : List (List (List Nat)))) [[1], [2]]
        ≠ [[[10]], [[20, 30]]]) := by
  refine ⟨⟨?_, ?_⟩, ?_, ?_⟩ <;> decide

/-- The mutable state of a `_peel` call: the caller's `coef` object and the
`coef_lvl` list of tensors.  `_peel` starts `coef_lvl` with `deepcopy(coef)`
(api.py:363), so the working tensor is a distinct object holding an equal
value; all later pops mutate entries of `coef_lvl` only. -/
structure PeelSt (α : Type) : Type where
  caller : List (List α)
  lvls : List (List (List α))

/-- One iteration of `_peel`'s loop as a state transition: the pops remove the
front block from the current last tensor of `coef_lvl` (leaving `enumDrop z`
of it) and the popped block (`enumTake z`) is appended. -/
def peelStep {α : Type} (z : List Nat) (st : PeelSt α) : PeelSt α :=
  PeelSt.mk st.caller
    (st.lvls.dropLast
      ++ [enumDrop z (st.lvls.getLastD []), enumTake z (st.lvls.getLastD [])])

/-- The whole `_peel(coef, nzs)` call as a state transformer, iterating over
`reversed(nzs)` from the post-`deepcopy` initial state. -/
def peelRun {α : Type} (coef : List (List α)) (nzs : List (List Nat)) : PeelSt α :=
  nzs.reverse.foldl (fun st z => peelStep z st) (PeelSt.mk coef [coef])

/-- Final values of the `coef_lvl` entries from a given current tensor on:
the current tensor ends as `enumDrop z` of itself (next iteration pops from
it) and the recursion continues on the popped block. -/
def chainFull {α : Type} : List (List Nat) → List (List α) → List (List (List α))
  | [], cur => [cur]
  | z :: zs, cur => enumDrop z cur :: chainFull zs (enumTake z cur)

theorem peelRun_fold {α : Type} :
    ∀ (zs : List (List Nat)) (c : List (List α)) (ls : List (List (List α)))
      (cur : List (List α)),
      zs.foldl (fun st z => peelStep z st) (PeelSt.mk c (ls ++ [cur]))
        = PeelSt.mk c (ls ++ chainFull zs cur) := by
  intro zs
  induction zs with
  | nil => intro c ls cur; rfl
  | cons z zs ih =>
    intro c ls cur
    rw [List.foldl_cons]
    have hstep : peelStep z (PeelSt.mk c (ls ++ [cur]))
        = PeelSt.mk c ((ls ++ [enumDrop z cur]) ++ [enumTake z cur]) := by
      unfold peelStep
      rw [List.dropLast_concat, List.getLastD_concat]
      simp
    rw [hstep, ih]
    simp [chainFull]

theorem peelChain_eq_chainFull {α : Type} :
    ∀ (zs : List (List Nat)) (z : List Nat) (cur : List (List α)),
      peelChain (z :: zs) cur = chainFull zs (enumTake z cur) := by
  intro zs
  induction zs with
  | nil => intro z cur; rfl
  | cons z' rest ih =>
    intro z cur
    show enumDrop z' (enumTake z cur) :: peelChain (z' :: rest) (enumTake z cur)
      = enumDrop z' (enumTake z cur) :: chainFull rest (enumTake z' (enumTake z cur))
    rw [ih z' (enumTake z cur)]

/-- C9: `_peel` never mutates its input.  In the state model, the caller's
tensor is exactly the same after the call as before (every pop hits the
`deepcopy` held inside `coef_lvl`), and the values returned
(`coef_lvl[1:][::-1]`) are exactly those computed by the pure `peel`. -/
theorem peel_preserves_input {α : Type} (coef : List (List α))
    (nzs : List (List Nat)) :
    (peelRun coef nzs).caller = coef ∧
    ((peelRun coef nzs).lvls).tail.reverse = peel coef nzs := by
  have hrun : peelRun coef nzs = PeelSt.mk coef (chainFull nzs.reverse coef) := by
    unfold peelRun
    have := peelRun_fold (α := α) nzs.reverse coef [] coef
    simpa using this
  constructor
  · rw [hrun]
  · rw [hrun]
    show (chainFull nzs.reverse coef).tail.reverse = peel coef nzs
    unfold peel
    cases hrev : nzs.reverse with
    | nil => rfl
    | cons z zs =>
      show (enumDrop z coef :: chainFull zs (enumTake z coef)).tail.reverse = _
      rw [List.tail_cons, ← peelChain_eq_chainFull zs z coef]

/-- The inputs of `_do_onion_opt` (api.py:260).  The spillage minimizer's
`opt` method and the initial-guess constructor `_coef_guess` live outside the
provided sources; they are abstracted as arbitrary function parameters with
the argument signatures used by `_do_onion_opt` (`opt` receives the initial
coefficients, the optional frozen inner coefficients, the configuration
indices and the band selection; `_coef_guess` receives the shell's `nzeta`
and the excluded inner `nzeta`).  Coefficient tensors are `[t][l][zeta]` with
abstract rows; `β` is the type of a shell's band selection, with `bdef` the
out-of-range default. -/
structure OnionParams (α β : Type) : Type where
  opt : List (List (List α)) → Option (List (List (List α))) → List Nat → β →
    List (List (List α))
  cguess : List Nat → Option (List Nat) → List (List (List α))
  nzeta : List (List Nat)
  iconfs : List (List Nat)
  ibands : List β
  deps : List (Option Nat)
  bdef : β

/-- The body of one `_do_onion_opt` loop iteration (api.py:294): resolve the
declared parent, build the guess excluding the parent's `nzeta`, optimize with
the parent's *current* entry of `coefs` as the frozen inner block, and merge
when that entry is present. -/
def onionStepVal {α β : Type} (P : OnionParams α β)
    (coefs : List (Option (List (List (List α))))) (iorb : Nat) :
    List (List (List α)) :=
  match P.deps.getD iorb none with
  | none => P.opt (P.cguess (P.nzeta.getD iorb []) none) none
      (P.iconfs.getD iorb []) (P.ibands.getD iorb P.bdef)
  | some p =>
      match coefs.getD p none with
      | none => P.opt (P.cguess (P.nzeta.getD iorb []) (some (P.nzeta.getD p [])))
          none (P.iconfs.getD iorb []) (P.ibands.getD iorb P.bdef)
      | some ci => merge2 ci
          (P.opt (P.cguess (P.nzeta.getD iorb []) (some (P.nzeta.getD p [])))
            (some ci) (P.iconfs.getD iorb []) (P.ibands.getD iorb P.bdef))

/-- The `coefs` array after the first `k` iterations of `_do_onion_opt`'s
loop, which runs over the shells *in list order* (`zip(range(norb), ...)`). -/
def onionState {α β : Type} (P : OnionParams α β) :
    Nat → List (Option (List (List (List α))))
  | 0 => List.replicate P.nzeta.length none
  | k + 1 => (onionState P k).set k (some (onionStepVal P (onionState P k) k))

/-- Embedding of `_do_onion_opt` (api.py:260): the final `coefs` list. -/
def doOnionOpt {α β : Type} (P : OnionParams α β) :
    List (Option (List (List (List α)))) :=
  onionState P P.nzeta.length

theorem onionState_length {α β : Type} (P : OnionParams α β) :
    ∀ k, (onionState P k).length = P.nzeta.length := by
  intro k
  induction k with
  | zero => simp [onionState]
  | succ k ih => rw [onionState, List.length_set]; exact ih

theorem onionState_none {α β : Type} (P : OnionParams α β) :
    ∀ k j, k ≤ j → (onionState P k).getD j none = none := by
  intro k
  induction k with
  | zero =>
    intro j _
    show (List.replicate P.nzeta.length none).getD j none = none
    exact getD_replicate none _ j
  | succ k ih =>
    intro j hj
    rw [onionState, getD_set_ne _ _ _ _ _ (by omega)]
    exact ih j (by omega)

theorem onionState_stable {α β : Type} (P : OnionParams α β) :
    ∀ (k k' j : Nat), j < k → k ≤ k' →
      (onionState P k').getD j none = (onionState P k).getD j none := by
  intro k k' j hj hk
  induction k' with
  | zero => omega
  | succ k' ih =>
    by_cases h : k = k' + 1
    · rw [h]
    · have hk' : k ≤ k' := by omega
      rw [onionState, getD_set_ne _ _ _ _ _ (by omega)]
      exact ih hk'

/-- Each entry of the final `coefs` is the value computed at its own loop
iteration, from the state existing at that time — and it is never altered by
later iterations. -/
theorem doOnionOpt_entry {α β : Type} (P : OnionParams α β) (j : Nat)
    (hj : j < P.nzeta.length) :
    (doOnionOpt P).getD j none = some (onionStepVal P (onionState P j) j) := by
  unfold doOnionOpt
  rw [onionState_stable P (j + 1) P.nzeta.length j (by omega) (by omega)]
  rw [onionState, getD_set_self]
  rw [onionState_length]
  exact hj

/-- C2 (amended): whenever a shell declares a parent that appears *earlier* in
the list (so the parent's coefficients are already computed when the child is
processed), the child's output tensor is exactly the parent's completed tensor
with the child's newly optimized block appended per channel (`merge`), the new
block is optimized with the parent's tensor as the frozen inner argument, the
parent's entry of `coefs` is left holding its own completed tensor, and the
child's channels start with the parent's rows unchanged. -/
theorem onion_child_extends_parent {α β : Type} (P : OnionParams α β) (i p : Nat)
    (hdep : P.deps.getD i none = some p) (hpi : p < i) (hin : i < P.nzeta.length) :
    ∃ par shell, (doOnionOpt P).getD p none = some par ∧
      shell = P.opt (P.cguess (P.nzeta.getD i []) (some (P.nzeta.getD p [])))
        (some par) (P.iconfs.getD i []) (P.ibands.getD i P.bdef) ∧
      (doOnionOpt P).getD i none = some (merge2 par shell) ∧
      ∀ t l, (((merge2 par shell).getD t []).getD l []).take
          (((par.getD t []).getD l []).length) = (par.getD t []).getD l [] := by
  have hp : p < P.nzeta.length := lt_trans hpi hin
  have hpar : (doOnionOpt P).getD p none
      = some (onionStepVal P (onionState P p) p) := doOnionOpt_entry P p hp
  have hstate : (onionState P i).getD p none
      = some (onionStepVal P (onionState P p) p) := by
    rw [onionState_stable P (p + 1) i p (by omega) (by omega)]
    rw [onionState, getD_set_self]
    rw [onionState_length]
    exact hp
  obtain ⟨par, hpardef⟩ : ∃ q, q = onionStepVal P (onionState P p) p := ⟨_, rfl⟩
  rw [← hpardef] at hpar hstate
  refine ⟨par, _, hpar, rfl, ?_, ?_⟩
  · rw [doOnionOpt_entry P i hin]
    unfold onionStepVal
    rw [hdep]
    dsimp only
    rw [hstate]
  · intro t l
    exact merge2_take _ _ t l

/-- Concrete onion-optimizer instance for the `onion_child_extends_parent`
witness: two shells, the second depending on the first; the abstract minimizer
records in its output whether a frozen inner block was supplied (`100 + band`
when frozen coefficients are present, `band` otherwise). -/
def onionP2 : OnionParams Nat Nat :=
  OnionParams.mk
    (fun _ inner _ ib =>
      match inner with
      | some _ => [[[100 + ib]]]
      | none => [[[ib]]])
    (fun _ _ => [[[9]]])
    [[1], [2]] [[], []] [5, 7] [none, some 0] 0

/-- Witness for `onion_child_extends_parent` on `onionP2` (`i = 1`, `p = 0`). -/
theorem onion_child_extends_parent_witness :
    ∃ par shell, (doOnionOpt onionP2).getD 0 none = some par ∧
      shell = onionP2.opt
        (onionP2.cguess (onionP2.nzeta.getD 1 []) (some (onionP2.nzeta.getD 0 [])))
        (some par) (onionP2.iconfs.getD 1 []) (onionP2.ibands.getD 1 onionP2.bdef) ∧
      (doOnionOpt onionP2).getD 1 none = some (merge2 par shell) ∧
      ∀ t l, (((merge2 par shell).getD t []).getD l []).take
          (((par.getD t []).getD l []).length) = (par.getD t []).getD l [] :=
  onion_child_extends_parent onionP2 1 0 (by decide) (by decide) (by decide)

/-- Concrete onion-optimizer instance with a *forward* dependency: shell 0
declares shell 1 (which appears later in the list) as its parent. -/
def onionP2c : OnionParams Nat Nat :=
  OnionParams.mk
    (fun _ inner _ ib =>
      match inner with
      | some _ => [[[100 + ib]]]
      | none => [[[ib]]])
    (fun _ _ => [[[9]]])
    [[1], [2]] [[], []] [5, 7] [some 1, none] 0

/-- C2 counterexample: with a forward dependency (`deps = [1, None]`), shell 0
declares a parent but is processed while `coefs[1]` is still `None`; its final
tensor `[[[5]]]` does not reproduce its parent's final tensor `[[[7]]]` in the
lower zeta indices, refuting the claim for arbitrary parent positions. -/
theorem onion_child_extends_parent_counterexample :
    (doOnionOpt onionP2c).getD 0 none = some [[[5]]] ∧
    (doOnionOpt onionP2c).getD 1 none = some [[[7]]] ∧
    ¬ ((([[[5]]] : List (List (List Nat))).getD 0 []).getD 0 []).take
        ((([[[7]]] : List (List (List Nat))).getD 0 []).getD 0 []).length
      = (([[[7]]] : List (List (List Nat))).getD 0 []).getD 0 [] := by
  refine ⟨?_, ?_, ?_⟩ <;> decide

/-- Modelled from the spec: the Onion Optimizer as the spec prescribes it,
resolving the processing order from the dependency references ("process shells
in dependency order (parent-before-child, *not* necessarily list order — must
resolve via the parent reference)").  One round processes, in list order,
every still-unprocessed shell whose parent (if any) is already processed;
`norb` rounds settle every shell of a valid forest. -/
def onionSpecRound {α β : Type} (P : OnionParams α β)
    (cs0 : List (Option (List (List (List α))))) :
    List (Option (List (List (List α)))) :=
  (List.range P.nzeta.length).foldl
    (fun cs i =>
      match cs.getD i none with
      | some _ => cs
      | none =>
        match P.deps.getD i none with
        | none => cs.set i (some (onionStepVal P cs i))
        | some p =>
          match cs.getD p none with
          | some _ => cs.set i (some (onionStepVal P cs i))
          | none => cs) cs0

/-- Modelled from the spec: iterate `onionSpecRound` until (at most `norb`
rounds) the dependency forest is exhausted. -/
def doOnionOptSpec {α β : Type} (P : OnionParams α β) :
    List (Option (List (List (List α)))) :=
  (onionSpecRound P)^[P.nzeta.length] (List.replicate P.nzeta.length none)

/-- C1: `_do_onion_opt` processes shells in *list order*, not in dependency
order.  On the forward-dependency instance `onionP1` (shell 0's parent is
shell 1, which appears later), the code optimizes shell 0 with a `None` frozen
inner block and never revisits it, whereas the spec-prescribed
dependency-order optimizer processes shell 1 first and then freezes its
coefficients inside shell 0's result.  The two disagree at shell 0. -/
def onionP1 : OnionParams Nat Nat :=
  OnionParams.mk
    (fun _ inner _ ib =>
      match inner with
      | some _ => [[[100 + ib]]]
      | none => [[[ib]]])
    (fun _ _ => [[[9]]])
    [[1], [2]] [[], []] [5, 7] [some 1, none] 0

/-- C1 (code bug evaluation): at the forward-dependency input, the code's
shell-0 output is `[[[5]]]` (optimized with no frozen inner block), the
spec-order optimizer's shell-0 output is `[[[7, 105]]]` (parent tensor
`[[[7]]]` frozen and extended), and the two differ. -/
theorem onion_list_order_bug :
    (doOnionOpt onionP1).getD 0 none = some [[[5]]] ∧
    (doOnionOptSpec onionP1).getD 0 none = some [[[7, 105]]] ∧
    (doOnionOpt onionP1).getD 0 none ≠ (doOnionOptSpec onionP1).getD 0 none := by
  refine ⟨?_, ?_, ?_⟩ <;> decide

/-- Embedding of the combination step of `_nzeta_mean_conf` (api.py:656):
given the per-configuration effective-nzeta vectors (the results of
`_nzeta_infer`, one per folder, here over `ℚ`), combine them componentwise by
`np.max(nzeta, axis=0)` under the `'max'` policy and by `np.mean(nzeta,
axis=0)` under `'mean'`; any other statistics name fails the assertion
(`none`), as does an empty folder list (`np.max`/`np.mean` of an empty stack).
The numpy axis-0 reductions are folds of the componentwise operations. -/
def nzetaMeanConf (stat : String) (vs : List (List ℚ)) : Option (List ℚ) :=
  if stat = "max" then
    match vs with
    | [] => none
    | v :: rest => some (rest.foldl (List.zipWith max) v)
  else if stat = "mean" then
    match vs with
    | [] => none
    | v :: rest =>
        some ((rest.foldl (List.zipWith (fun a b => a + b)) v).map
          (fun x => x / (vs.length : ℚ)))
  else none

/-- Embedding of the rounding applied by the jy optimization path
(`_coef_opt_jy`, api.py:147): `int(np.ceil(nz))` for every component of an
aggregated nzeta vector. -/
def ceilJy (xs : List ℚ) : List ℤ :=
  xs.map (fun x => ⌈x⌉)

theorem zipWith_getD (f : ℚ → ℚ → ℚ) (a b : List ℚ) (j : Nat)
    (ha : j < a.length) (hb : j < b.length) :
    (List.zipWith f a b).getD j 0 = f (a.getD j 0) (b.getD j 0) := by
  have h : j < (List.zipWith f a b).length := by
    rw [List.length_zipWith]
    omega
  rw [List.getD_eq_getElem _ _ h, List.getD_eq_getElem _ _ ha,
    List.getD_eq_getElem _ _ hb, List.getElem_zipWith]

theorem foldl_zipWith_length (f : ℚ → ℚ → ℚ) (m : Nat) :
    ∀ (rest : List (List ℚ)) (init : List ℚ), init.length = m →
      (∀ w ∈ rest, w.length = m) →
      (rest.foldl (List.zipWith f) init).length = m := by
  intro rest
  induction rest with
  | nil => intro init h _; exact h
  | cons a rest ih =>
    intro init hinit hall
    rw [List.foldl_cons]
    refine ih _ ?_ (fun w hw => hall w (List.mem_cons_of_mem a hw))
    rw [List.length_zipWith, hinit, hall a (List.mem_cons_self a rest)]
    omega

theorem foldl_zipmax_getD (m j : Nat) (hj : j < m) :
    ∀ (rest : List (List ℚ)) (init : List ℚ), init.length = m →
      (∀ w ∈ rest, w.length = m) →
      (rest.foldl (List.zipWith max) init).getD j 0
        = (rest.map (fun w => w.getD j 0)).foldl max (init.getD j 0) := by
  intro rest
  induction rest with
  | nil => intro init _ _; rfl
  | cons a rest ih =>
    intro init hinit hall
    have ha : a.length = m := hall a (List.mem_cons_self a rest)
    have hz : (List.zipWith max init a).length = m := by
      rw [List.length_zipWith, hinit, ha]; omega
    rw [List.foldl_cons, List.map_cons, List.foldl_cons,
      ih _ hz (fun w hw => hall w (List.mem_cons_of_mem a hw)),
      zipWith_getD max init a j (by omega) (by omega)]

theorem foldl_zipadd_getD (m j : Nat) (hj : j < m) :
    ∀ (rest : List (List ℚ)) (init : List ℚ), init.length = m →
      (∀ w ∈ rest, w.length = m) →
      (rest.foldl (List.zipWith (fun a b => a + b)) init).getD j 0
        = init.getD j 0 + (rest.map (fun w => w.getD j 0)).sum := by
  intro rest
  induction rest with
  | nil => intro init _ _; simp
  | cons a rest ih =>
    intro init hinit hall
    have ha : a.length = m := hall a (List.mem_cons_self a rest)
    have hz : (List.zipWith (fun a b => a + b) init a).length = m := by
      rw [List.length_zipWith, hinit, ha]; omega
    rw [List.foldl_cons, List.map_cons, List.sum_cons,
      ih _ hz (fun w hw => hall w (List.mem_cons_of_mem a hw)),
      zipWith_getD _ init a j (by omega) (by omega)]
    ring

theorem le_foldl_max : ∀ (l : List ℚ) (a : ℚ), a ≤ l.foldl max a := by
  intro l
  induction l with
  | nil => intro a; exact le_refl a
  | cons x l ih =>
    intro a
    rw [List.foldl_cons]
    exact le_trans (le_max_left a x) (ih (max a x))

theorem mem_le_foldl_max : ∀ (l : List ℚ) (a x : ℚ), x ∈ l → x ≤ l.foldl max a := by
  intro l
  induction l with
  | nil => intro a x hx; simp at hx
  | cons y l ih =>
    intro a x hx
    rw [List.foldl_cons]
    rcases List.mem_cons.mp hx with h | h
    · rw [h]
      exact le_trans (le_max_right a y) (le_foldl_max l (max a y))
    · exact ih (max a y) x h

theorem foldl_max_mem : ∀ (l : List ℚ) (a : ℚ), l.foldl max a ∈ a :: l := by
  intro l
  induction l with
  | nil => intro a; exact List.mem_singleton.mpr rfl
  | cons x l ih =>
    intro a
    rw [List.foldl_cons]
    rcases List.mem_cons.mp (ih (max a x)) with h | h
    · rcases max_choice a x with hm | hm
      · rw [h, hm]; exact List.mem_cons_self _ _
      · rw [h, hm]; exact List.mem_cons_of_mem _ (List.mem_cons_self _ _)
    · exact List.mem_cons_of_mem _ (List.mem_cons_of_mem _ h)

/-- C6: under the `'max'` statistics policy the per-configuration
effective-nzeta vectors are combined componentwise by maximum (the result's
component is one of the inputs' components and dominates all of them), under
`'mean'` by arithmetic mean, and the jy path then rounds every aggregated
component up to the nearest integer — `int(np.ceil(.))` is the least integer
not below the component, never a rounding down. -/
theorem nzeta_stats_combination (v : List ℚ) (rest : List (List ℚ)) (m j : Nat)
    (hv : v.length = m) (hrest : ∀ w ∈ rest, w.length = m) (hj : j < m) :
    (∃ r, nzetaMeanConf ("max") (v :: rest) = some r ∧
      r.getD j 0 ∈ (v :: rest).map (fun w => w.getD j 0) ∧
      ∀ w ∈ (v :: rest), w.getD j 0 ≤ r.getD j 0) ∧
    (∃ r, nzetaMeanConf ("mean") (v :: rest) = some r ∧
      r.getD j 0
        = ((v :: rest).map (fun w => w.getD j 0)).sum / (((v :: rest).length : ℚ))) ∧
    (∀ xs : List ℚ, ∀ i : Nat,
      xs.getD i 0 ≤ (((ceilJy xs).getD i 0 : ℤ) : ℚ) ∧
      (((ceilJy xs).getD i 0 : ℤ) : ℚ) < xs.getD i 0 + 1) := by
  refine ⟨?_, ?_, ?_⟩
  · refine ⟨rest.foldl (List.zipWith max) v, rfl, ?_, ?_⟩
    · rw [foldl_zipmax_getD m j hj rest v hv hrest, List.map_cons]
      exact foldl_max_mem _ _
    · intro w hw
      rw [foldl_zipmax_getD m j hj rest v hv hrest]
      rcases List.mem_cons.mp hw with h | h
      · rw [h]
        exact le_foldl_max _ _
      · exact mem_le_foldl_max _ _ _ (List.mem_map_of_mem _ h)
  · refine ⟨_, rfl, ?_⟩
    have hlen : (rest.foldl (List.zipWith (fun a b => a + b)) v).length = m :=
      foldl_zipWith_length _ m rest v hv hrest
    have hjl : j < (rest.foldl (List.zipWith (fun a b => a + b)) v).length := by omega
    rw [List.getD_eq_getElem _ _ (by simpa using hjl), List.getElem_map,
      ← List.getD_eq_getElem _ (0 : ℚ) hjl,
      foldl_zipadd_getD m j hj rest v hv hrest, List.map_cons, List.sum_cons]
  · intro xs i
    by_cases hi : i < xs.length
    · have hc : (ceilJy xs).getD i 0 = ⌈xs.getD i 0⌉ := by
        unfold ceilJy
        rw [List.getD_eq_getElem _ _ (by simpa using hi), List.getElem_map,
          List.getD_eq_getElem _ _ hi]
      rw [hc]
      exact ⟨Int.le_ceil _, Int.ceil_lt_add_one _⟩
    · have h1 : xs.getD i 0 = 0 := List.getD_eq_default _ _ (Nat.le_of_not_lt hi)
      have h2 : (ceilJy xs).getD i 0 = 0 := by
        refine List.getD_eq_default _ _ ?_
        unfold ceilJy
        simpa using Nat.le_of_not_lt hi
      rw [h1, h2]
      norm_num

/-- Witness for `nzeta_stats_combination` on two one-channel configurations
with effective nzeta `3/2` and `1/2`. -/
theorem nzeta_stats_combination_witness :
    (∃ r, nzetaMeanConf ("max") ([[3/2], [1/2]] : List (List ℚ)) = some r ∧
      r.getD 0 0 ∈ ([[3/2], [1/2]] : List (List ℚ)).map (fun w => w.getD 0 0) ∧
      ∀ w ∈ ([[3/2], [1/2]] : List (List ℚ)), w.getD 0 0 ≤ r.getD 0 0) ∧
    (∃ r, nzetaMeanConf ("mean") ([[3/2], [1/2]] : List (List ℚ)) = some r ∧
      r.getD 0 0
        = (([[3/2], [1/2]] : List (List ℚ)).map (fun w => w.getD 0 0)).sum
            / ((([[3/2], [1/2]] : List (List ℚ)).length : ℚ))) ∧
    (∀ xs : List ℚ, ∀ i : Nat,
      xs.getD i 0 ≤ (((ceilJy xs).getD i 0 : ℤ) : ℚ) ∧
      (((ceilJy xs).getD i 0 : ℤ) : ℚ) < xs.getD i 0 + 1) :=
  nzeta_stats_combination [3/2] [[1/2]] 1 0 (by decide)
    (by intro w hw; fin_cases hw; decide) (by decide)

/-- One (spin, k-point) record consumed by `_nzeta_infer`'s loop:
`nbandsCalc` is `wfc.shape[1]` (the number of computed bands in that
wavefunction file), `nz` the per-channel counts produced by the population
analysis, `w` the k-point weight. -/
structure SkData : Type where
  nbandsCalc : Nat
  nz : List ℚ
  w : ℚ

/-- Failure raised by `_nzeta_infer` (api.py:727): an `AssertionError` whose
message names both the requested and the available band counts
("number of bands for orbgen is larger than calculated: req > avail"). -/
inductive InferErr : Type
  | bandMismatch : Nat → Nat → InferErr
deriving DecidableEq

/-- `np.resize` to a (1-D) target length: cyclic repetition of the data. -/
def npResize (xs : List ℚ) (n : Nat) : List ℚ :=
  (List.range n).map (fun i => xs.getD (i % xs.length) 0)

/-- The loop of `_nzeta_infer` (api.py:717): for each (spin, k) record, first
assert that the computed band count suffices for the requested `nband`, then
accumulate `nz * w / nspin` into the running vector after an `np.resize` to
the larger shape.  (The numpy addition requires the resized accumulator and
`nz` to have equal length; inputs of unequal channel counts would raise in
numpy and are excluded by hypotheses where relevant.) -/
def nzetaInferLoop (nband : Nat) (nspin : ℚ) :
    List SkData → List ℚ → Except InferErr (List ℚ)
  | [], acc => Except.ok acc
  | sk :: rest, acc =>
      if sk.nbandsCalc < nband then
        Except.error (InferErr.bandMismatch nband sk.nbandsCalc)
      else
        nzetaInferLoop nband nspin rest
          (List.zipWith (fun a b => a + b)
            (npResize acc (max acc.length sk.nz.length))
            (sk.nz.map (fun x => x * sk.w / nspin)))

/-- Embedding of `_nzeta_infer`'s accumulation over all (spin, k) records,
starting from the initial `np.array([0])`. -/
def nzetaInfer (nband : Nat) (nspin : ℚ) (sks : List SkData) :
    Except InferErr (List ℚ) :=
  nzetaInferLoop nband nspin sks [0]

theorem nzetaInferLoop_fail (nband : Nat) (nspin : ℚ) :
    ∀ (sks : List SkData) (acc : List ℚ),
      (∃ sk ∈ sks, sk.nbandsCalc < nband) →
      ∃ avail, nzetaInferLoop nband nspin sks acc
          = Except.error (InferErr.bandMismatch nband avail) ∧ avail < nband := by
  intro sks
  induction sks with
  | nil =>
    intro acc h
    obtain ⟨sk, hsk, _⟩ := h
    simp at hsk
  | cons sk rest ih =>
    intro acc h
    by_cases hfail : sk.nbandsCalc < nband
    · refine ⟨sk.nbandsCalc, ?_, hfail⟩
      unfold nzetaInferLoop
      rw [if_pos hfail]
    · obtain ⟨sk', hsk', hlt⟩ := h
      rcases List.mem_cons.mp hsk' with hs | hs
      · exact absurd (hs ▸ hlt) hfail
      · have := ih (List.zipWith (fun a b => a + b)
          (npResize acc (max acc.length sk.nz.length))
          (sk.nz.map (fun x => x * sk.w / nspin))) ⟨sk', hs, hlt⟩
        obtain ⟨avail, heq, hav⟩ := this
        refine ⟨avail, ?_, hav⟩
        unfold nzetaInferLoop
        rw [if_neg hfail]
        exact heq

/-- C7: if the requested band count exceeds the number of computed bands in
some (spin, k) record of the configuration, `_nzeta_infer` fails with the
band-count assertion, whose error carries both the requested and the
available counts (rendered in the Python message as "req > avail"). -/
theorem nzeta_infer_band_overflow (nband : Nat) (nspin : ℚ) (sks : List SkData)
    (h : ∃ sk ∈ sks, sk.nbandsCalc < nband) :
    ∃ avail, nzetaInfer nband nspin sks
        = Except.error (InferErr.bandMismatch nband avail) ∧ avail < nband :=
  nzetaInferLoop_fail nband nspin sks [0] h

/-- Witness for `nzeta_infer_band_overflow`: one gamma-point record with 4
computed bands, 10 requested. -/
theorem nzeta_infer_band_overflow_witness :
    ∃ avail, nzetaInfer 10 1 [SkData.mk 4 [1, 1, 0] 1]
        = Except.error (InferErr.bandMismatch 10 avail) ∧ avail < 10 :=
  nzeta_infer_band_overflow 10 1 [SkData.mk 4 [1, 1, 0] 1]
    ⟨SkData.mk 4 [1, 1, 0] 1, List.mem_singleton.mpr rfl, by decide⟩

/-- The character class `[01]` of the `_orb_matrices` regexes. -/
def charIn01 (c : Char) : Bool :=
  c == '0' || c == '1'

/-- Python `re.match(r"orb_matrix.([01]).dat", f)` (api.py:470): an unanchored
prefix match, with `.` a single-character wildcard; positions 0-9 are the
literal `orb_matrix`, 10 a wildcard, 11 the `[01]` class, 12 a wildcard,
13-15 the literal `dat`.  (The newline exclusion of `.` is immaterial for
file names and not modelled.) -/
def matchesOld (s : String) : Bool :=
  decide (16 ≤ s.data.length) && (s.data.take 10 == "orb_matrix".data)
    && charIn01 (s.data.getD 11 'x')
    && ((s.data.drop 13).take 3 == "dat".data)

/-- Python `re.match(r"orb_matrix_rcut(\d+)deriv([01]).dat", f)` (api.py:471):
prefix `orb_matrix_rcut`, a nonempty maximal digit run, literal `deriv`, one
`[01]` character, a wildcard, then `dat`.  (`Char.isDigit` is the ASCII digit
class; the file names at stake are ASCII.) -/
def matchesNew (s : String) : Bool :=
  (s.data.take 15 == "orb_matrix_rcut".data)
    && decide (0 < ((s.data.drop 15).takeWhile Char.isDigit).length)
    && (((s.data.drop 15).drop
          ((s.data.drop 15).takeWhile Char.isDigit).length).take 5 == "deriv".data)
    && charIn01 (((s.data.drop 15).drop
          ((s.data.drop 15).takeWhile Char.isDigit).length).getD 5 'x')
    && ((((s.data.drop 15).drop
          ((s.data.drop 15).takeWhile Char.isDigit).length).drop 7).take 3
        == "dat".data)

/-- Code-point lexicographic comparison of character lists: the order Python
uses to compare `str` values in `sorted`. -/
def lexLe : List Char → List Char → Bool
  | [], _ => true
  | _ :: _, [] => false
  | a :: as, b :: bs =>
      if a.val < b.val then true
      else if b.val < a.val then false
      else lexLe as bs

def insertStr (x : String) : List String → List String
  | [] => [x]
  | y :: ys => if lexLe x.data y.data then x :: y :: ys else y :: insertStr x ys

/-- Stable sort of file names by code-point lexicographic order: the result of
Python's `sorted` on distinct strings.  (All compared paths share the same
directory prefix, so comparing bare file names agrees with comparing the
joined absolute paths.) -/
def sortStrs : List String → List String
  | [] => []
  | x :: xs => insertStr x (sortStrs xs)

/-- Consecutive pairing `[(f[0], f[1]), (f[2], f[3]), ...]` (api.py:488). -/
def pairUp : List String → List (String × String)
  | a :: b :: rest => (a, b) :: pairUp rest
  | _ => []

def emptyStr : String :=
  ""

/-- Failures of `_orb_matrices` (api.py:478-480 assertions, plus the
`TypeError` from iterating `None` when the directory holds no matching file
at all). -/
inductive OrbErr : Type
  | coexist : OrbErr
  | oldCount : OrbErr
  | oddNew : OrbErr
  | noFiles : OrbErr
deriving DecidableEq

/-- Embedding of `_orb_matrices(folder)` (api.py:446) over the directory
listing (file names in listing order): legacy and new-style name patterns are
matched per file; coexistence, a legacy count other than two, and an odd
new-style count are assertion failures; otherwise the two legacy files (in
listing order) form the single pair, or the new-style files are sorted as
strings and paired consecutively. -/
def orbMatrices (files : List String) : Except OrbErr (List (String × String)) :=
  if (files.filter (fun f => matchesOld f)) ≠ []
      ∧ (files.filter (fun f => matchesNew f)) ≠ [] then
    Except.error OrbErr.coexist
  else if (files.filter (fun f => matchesOld f)) ≠ []
      ∧ (files.filter (fun f => matchesOld f)).length ≠ 2 then
    Except.error OrbErr.oldCount
  else if (files.filter (fun f => matchesNew f)).length % 2 ≠ 0 then
    Except.error OrbErr.oddNew
  else if (files.filter (fun f => matchesOld f)) ≠ [] then
    Except.ok [((files.filter (fun f => matchesOld f)).getD 0 emptyStr,
      (files.filter (fun f => matchesOld f)).getD 1 emptyStr)]
  else if (files.filter (fun f => matchesNew f)) ≠ [] then
    Except.ok (pairUp (sortStrs (files.filter (fun f => matchesNew f))))
  else Except.error OrbErr.noFiles

/-- C8 counterexample: new-style files are sorted as *strings*, not by the
numeric cutoff value.  With cutoffs 10 and 6 (both in the documented 6-10
range), the rcut10 pair sorts before the rcut6 pair because the character
`1` precedes `6`, so the pairs are not in numeric (cutoff, derivative)
order. -/
theorem orb_matrices_sort_counterexample :
    orbMatrices ["orb_matrix_rcut10deriv0.dat", "orb_matrix_rcut10deriv1.dat",
        "orb_matrix_rcut6deriv0.dat", "orb_matrix_rcut6deriv1.dat"]
      = Except.ok [("orb_matrix_rcut10deriv0.dat", "orb_matrix_rcut10deriv1.dat"),
        ("orb_matrix_rcut6deriv0.dat", "orb_matrix_rcut6deriv1.dat")] ∧
    ([("orb_matrix_rcut10deriv0.dat", "orb_matrix_rcut10deriv1.dat"),
        ("orb_matrix_rcut6deriv0.dat", "orb_matrix_rcut6deriv1.dat")]
      : List (String × String))
      ≠ [("orb_matrix_rcut6deriv0.dat", "orb_matrix_rcut6deriv1.dat"),
        ("orb_matrix_rcut10deriv0.dat", "orb_matrix_rcut10deriv1.dat")] := by
  exact ⟨rfl, by decide⟩

/-- C8 (amended): discovery on exactly the two legacy files yields exactly
that one pair; a directory mixing legacy and new-style names fails; an odd
number of new-style files fails; and a directory of new-style files only
yields the pairs sorted lexicographically by file name — which coincides with
numeric (cutoff, derivative) order when the cutoff values have equal digit
count (here 6 and 7, from a scrambled listing), but not across a digit-length
boundary (see the counterexample). -/
theorem orb_matrices_discovery :
    orbMatrices ["orb_matrix.0.dat", "orb_matrix.1.dat"]
      = Except.ok [("orb_matrix.0.dat", "orb_matrix.1.dat")] ∧
    orbMatrices ["orb_matrix.0.dat", "orb_matrix.1.dat",
        "orb_matrix_rcut6deriv0.dat"]
      = Except.error OrbErr.coexist ∧
    orbMatrices ["orb_matrix_rcut6deriv0.dat", "orb_matrix_rcut6deriv1.dat",
        "orb_matrix_rcut7deriv0.dat"]
      = Except.error OrbErr.oddNew ∧
    orbMatrices ["orb_matrix_rcut7deriv1.dat", "orb_matrix_rcut6deriv0.dat",
        "orb_matrix_rcut7deriv0.dat", "orb_matrix_rcut6deriv1.dat"]
      = Except.ok [("orb_matrix_rcut6deriv0.dat", "orb_matrix_rcut6deriv1.dat"),
        ("orb_matrix_rcut7deriv0.dat", "orb_matrix_rcut7deriv1.dat")] := by
  exact ⟨rfl, rfl, rfl, rfl⟩
